import Mathlib

/-!
Verification development for the kopia repository storage engine.

Shallow embedding of the parts of the code base needed to settle the frozen
claims: gather write buffers (internal/gather), the cached blob-storage
wrapper (package cached), the local packed cache storage (internal/cache),
the list-cache wrapper (internal/listcache), user-profile management
(package user), the treewalk worker pool (package treewalk), the
maintenance drop-deleted-contents timing rule, and upgrade rollback
(package format).

Bytes are modelled as natural numbers, byte slices as lists; Go errors are
modelled with `Except`; maps are association lists; wall-clock times are
integers.  Stateful code is modelled by explicit state passing.
-/

instance {E A : Type} [DecidableEq E] [DecidableEq A] : DecidableEq (Except E A) := fun a b =>
  match a, b with
  | .ok x, .ok y => if h : x = y then .isTrue (by rw [h]) else .isFalse (by simp [h])
  | .error x, .error y => if h : x = y then .isTrue (by rw [h]) else .isFalse (by simp [h])
  | .ok _, .error _ => .isFalse (by simp)
  | .error _, .ok _ => .isFalse (by simp)

namespace Gather

/-- A byte slice. -/
abbrev Data := List Nat

/-- The last element of the list of slices (`b.inner.Slices[len-1]`); `[]` for an
empty slice list (that case is never reached by `Append`, which allocates a first
chunk up front). -/
def lastChunk : List Data → Data
  | [] => []
  | [c] => c
  | _ :: rest => lastChunk rest

/-- Replace the last element of the list of slices (`b.inner.Slices[ndx] = ...`). -/
def setLast : List Data → Data → List Data
  | [], _ => []
  | [_], v => [v]
  | c :: rest, v => c :: setLast rest v

/-- The `for len(data) > 0` loop of `WriteBuffer.Append`
(internal/gather/gather_write_buffer.go).  `cs` is the allocator's chunk size
(`cap` of every chunk); a chunk with `length < cs` has `remaining = cs - length`
free capacity.  When the last chunk is full a fresh empty chunk is appended
(`allocChunk`), then `min(remaining, len(data))` bytes are copied into the last
chunk and the loop continues on the rest of `data`.  The loop consumes at least
one byte per iteration whenever `0 < cs`, so `fuel = data.length` makes the
fueled recursion exact. -/
def appendLoop (cs : Nat) : Nat → List Data → Data → List Data
  | _, slices, [] => slices
  | 0, slices, _ :: _ => slices
  | fuel + 1, slices, d :: ds =>
    let slices1 := if cs - (lastChunk slices).length = 0 then slices ++ [[]] else slices
    let n := min (cs - (lastChunk slices1).length) (d :: ds).length
    appendLoop cs fuel (setLast slices1 (lastChunk slices1 ++ (d :: ds).take n)) ((d :: ds).drop n)

/-- Model of `WriteBuffer.Append`: when no slices exist yet a first empty chunk is
allocated, then the copy loop runs. -/
def wbAppend (cs : Nat) (slices : List Data) (data : Data) : List Data :=
  let slices0 := if slices.length = 0 then [[]] else slices
  appendLoop cs data.length slices0 data

/-- Model of `Bytes.Length` as used by `WriteBuffer.Length`: combined length of all slices. -/
def bytesLength (slices : List Data) : Nat := (slices.map List.length).sum

/-- Model of `Bytes.ToByteSlice` as used by `WriteBuffer.ToByteSlice`: all bytes in order. -/
def toByteSlice (slices : List Data) : Data := slices.flatten

/-- Model of `WriteBuffer.Write`: appends and reports `(len(data), nil)`; `none` models the
`nil` error. -/
def wbWrite (cs : Nat) (slices : List Data) (data : Data) :
    List Data × Nat × Option String :=
  (wbAppend cs slices data, data.length, none)

/-- Run a sequence of `Append` calls on a fresh `WriteBuffer` (whose slice list
starts empty). -/
def runAppends (cs : Nat) (datas : List Data) : List Data :=
  datas.foldl (fun s d => wbAppend cs s d) []

end Gather

namespace Cached

/-- Blob payload bytes. -/
abbrev Data := List Nat

/-- Blob-storage error kinds distinguished by the claims
(`blob.ErrBlobNotFound`, `blob.ErrInvalidRange`). -/
inductive BlobErr where
  | notFound
  | invalidRange
deriving DecidableEq

/-- Look up a blob id in an association list (a Go `map[blob.ID]...`). -/
def lookupBlob (blobs : List (String × Data)) (id : String) : Option Data :=
  (blobs.find? (fun e => e.fst == id)).map (·.snd)

/-- Insert or replace a blob in an association list. -/
def insertBlob (blobs : List (String × Data)) (id : String) (d : Data) :
    List (String × Data) :=
  blobs.filter (fun e => e.fst != id) ++ [(id, d)]

/-- Remove a blob from an association list. -/
def removeBlob (blobs : List (String × Data)) (id : String) : List (String × Data) :=
  blobs.filter (fun e => e.fst != id)

/-- Modelled from the spec: the base blob storage used under the cached wrapper
(the map storage of internal/blobtesting is not among the sources).  Spec section
4.1: `get` with `length == -1` returns from offset to end, `offset < 0` or
past-end is `InvalidRange`, a missing id is `NotFound`. -/
def mapGet (blobs : List (String × Data)) (id : String) (offset length : Int) :
    Except BlobErr Data :=
  match lookupBlob blobs id with
  | none => .error .notFound
  | some d =>
    if offset < 0 ∨ offset ≥ (d.length : Int) then .error .invalidRange
    else if length < 0 then .ok (d.drop offset.toNat)
    else if offset + length > (d.length : Int) then .error .invalidRange
    else .ok ((d.drop offset.toNat).take length.toNat)

/-- Modelled from the spec: base map-storage delete; spec section 4.1: `delete` on
missing id returns a distinguished `NotFound` error. -/
def mapDelete (blobs : List (String × Data)) (id : String) :
    Except BlobErr (List (String × Data)) :=
  match lookupBlob blobs id with
  | none => .error .notFound
  | some _ => .ok (removeBlob blobs id)

/-- Model of `BlobAction` of the cached wrapper: ignore / cache / pass-through. -/
inductive BlobAction where
  | ignore
  | cacheIt
  | passThrough
deriving DecidableEq

/-- State of `cachedStorage`: the base storage contents and the in-memory cache
map (the cached item's metadata is derived from the data and a clock and is not
needed by the claims). -/
structure CState where
  base : List (String × Data)
  cache : List (String × Data)
deriving DecidableEq

/-- Model of `cachedStorage.serveBlobFromCache`: serves a range of the cached full-blob
data.  `offset < 0` or at/past the end is `ErrInvalidRange`; negative `length`
returns from offset to the end; `offset+length` past the end is
`ErrInvalidRange`; otherwise the exact range. -/
def serveBlobFromCache (data : Data) (offset length : Int) : Except BlobErr Data :=
  if offset < 0 ∨ offset ≥ (data.length : Int) then .error .invalidRange
  else if length < 0 then .ok (data.drop offset.toNat)
  else if offset + length > (data.length : Int) then .error .invalidRange
  else .ok ((data.drop offset.toNat).take length.toNat)

/-- Model of `cachedStorage.GetBlob`: check the cache first, else fall back to the base
storage. -/
def getBlob (st : CState) (id : String) (offset length : Int) : Except BlobErr Data :=
  match lookupBlob st.cache id with
  | some d => serveBlobFromCache d offset length
  | none => mapGet st.base id offset length

/-- Model of `cachedStorage.PutBlob`: dispatch on the action function; `Ignore` silently
drops the data, `Cache` stores in the in-memory cache and the base, `PassThrough`
stores only in the base. -/
def putBlob (af : String → BlobAction) (st : CState) (id : String) (d : Data) :
    Except BlobErr Unit × CState :=
  match af id with
  | .ignore => (.ok (), st)
  | .cacheIt =>
    (.ok (), { base := insertBlob st.base id d, cache := insertBlob st.cache id d })
  | .passThrough => (.ok (), { st with base := insertBlob st.base id d })

/-- Model of `cachedStorage.DeleteBlob`: remove from the cache, then delete from the base
storage, surfacing the base's result. -/
def deleteBlob (st : CState) (id : String) : Except BlobErr Unit × CState :=
  let st1 : CState := { st with cache := removeBlob st.cache id }
  match mapDelete st1.base id with
  | .ok b2 => (.ok (), { st1 with base := b2 })
  | .error e => (.error e, st1)

/-- Model of `IgnorePrefixesActionFunc`: ignore blobs whose id starts with one of the
given prefixes, cache all others. -/
def ignorePfxsActionFunc (pfxs : List String) : String → BlobAction :=
  fun id =>
    if pfxs.any (fun p => p.data.isPrefixOf id.data) then .ignore else .cacheIt

end Cached

namespace PackedCache

/-- Pack file rotation threshold: `packSize = 20 * 1024 * 1024` (20 MiB),
internal/cache/packed_cache_storage.go. -/
def packSize : Nat := 20 * 1024 * 1024

/-- State of `PackedStorage`.  Pack files are modelled by the lengths of the
blobs written into them (`currentLens` is the open write-pack, in write order;
`closedPacks` are the rotated ones); `currentOffset` is the write offset in the
open pack and `hasCurrent` models `currentPack != nil`.  `index` holds the blob
ids present in the in-memory index map. -/
structure PState where
  hasCurrent : Bool
  currentOffset : Nat
  currentLens : List Nat
  closedPacks : List (List Nat)
  index : List String
deriving DecidableEq

/-- The state of a freshly created packed storage (empty directory). -/
def initState : PState :=
  { hasCurrent := false, currentOffset := 0, currentLens := [], closedPacks := [], index := [] }

/-- Model of `PackedStorage.rotatePackFile`: close the current pack (if any) and start a
fresh one at offset 0. -/
def rotatePackFile (st : PState) : PState :=
  { hasCurrent := true
    currentOffset := 0
    currentLens := []
    closedPacks := st.closedPacks ++ (if st.hasCurrent then [st.currentLens] else [])
    index := st.index }

/-- Model of `PackedStorage.PutBlob`: rotate when there is no current pack or the write
offset plus the incoming length would exceed `packSize`; then append the data to
the current pack and record the index entry.  The returned `Bool` reports
whether `rotatePackFile` ran. -/
def putBlob (st : PState) (id : String) (len : Nat) : PState × Bool :=
  let rotated := st.hasCurrent = false ∨ st.currentOffset + len > packSize
  let st1 := if st.hasCurrent = false ∨ st.currentOffset + len > packSize
             then rotatePackFile st else st
  ({ st1 with
      currentLens := st1.currentLens ++ [len]
      currentOffset := st1.currentOffset + len
      index := (st1.index.filter (fun i => i != id)) ++ [id] },
   decide rotated)

/-- Model of `PackedStorage.DeleteBlob`: remove the id from the index map (and touch
times) and return nil — no error is ever reported, even for a missing id. -/
def deleteBlob (st : PState) (id : String) : Except Cached.BlobErr Unit × PState :=
  (.ok (), { st with index := st.index.filter (fun i => i != id) })

/-- Run a sequence of `PutBlob` calls (id/length pairs) from a given state. -/
def runPuts (st : PState) (puts : List (String × Nat)) : PState :=
  puts.foldl (fun s p => (putBlob s p.fst p.snd).fst) st

/-- The final length of a pack file modelled by its blob lengths. -/
def packLen (p : List Nat) : Nat := p.sum

/-- The largest single blob written into a pack (0 for an empty pack). -/
def maxBlobLen (p : List Nat) : Nat := p.foldl max 0

end PackedCache

namespace ListCache

/-- Blob payload bytes. -/
abbrev Data := List Nat

/-- Go `strings.HasPrefix`, on the character lists underlying the id strings. -/
def strHasPfx (p s : String) : Bool := p.data.isPrefixOf s.data

/-- Model of `cachedList`: one persisted listing, with its expiry instant and the listed
blob ids (blob metadata besides the id is not needed by the claim).  The JSON
encoding and the HMAC are abstracted away: entries present in the cache storage
are exactly the well-signed ones. -/
structure CachedList where
  expireAfter : Int
  blobs : List String
deriving DecidableEq

/-- Configuration of `listCacheStorage`: the fixed set of cached prefixes and the
cache TTL. -/
structure LCConfig where
  prefixes : List String
  cacheDuration : Int
deriving DecidableEq

/-- State of `listCacheStorage`: the underlying storage contents and the cache
storage keyed by prefix. -/
structure LCState where
  base : List (String × Data)
  cacheStorage : List (String × CachedList)
deriving DecidableEq

/-- Look up a persisted listing by prefix. -/
def lookupCache (cs : List (String × CachedList)) (pfx : String) : Option CachedList :=
  (cs.find? (fun e => e.fst == pfx)).map (·.snd)

/-- Store a listing under a prefix (`saveListToCache`). -/
def saveListToCache (cs : List (String × CachedList)) (pfx : String) (cl : CachedList) :
    List (String × CachedList) :=
  cs.filter (fun e => e.fst != pfx) ++ [(pfx, cl)]

/-- Delete a persisted listing (`cacheStorage.DeleteBlob` in
`invalidateAfterUpdate`; the result is ignored by the caller). -/
def dropCachedList (cs : List (String × CachedList)) (pfx : String) :
    List (String × CachedList) :=
  cs.filter (fun e => e.fst != pfx)

/-- All blob ids of the underlying storage that start with the prefix
(`blob.ListAllBlobs(ctx, s.Storage, prefix)`). -/
def baseList (base : List (String × Data)) (pfx : String) : List String :=
  (base.filter (fun e => strHasPfx pfx e.fst)).map (·.fst)

/-- Model of `listCacheStorage.isCachedPrefix`. -/
def isCachedPfx (cfg : LCConfig) (pfx : String) : Bool :=
  cfg.prefixes.any (fun p => p == pfx)

/-- Model of `readBlobsFromCache`: returns the persisted listing if present and not yet
expired (`cacheTimeFunc().Before(cl.ExpireAfter)`), else nothing. -/
def readBlobsFromCache (st : LCState) (pfx : String) (now : Int) : Option CachedList :=
  match lookupCache st.cacheStorage pfx with
  | none => none
  | some cl => if now < cl.expireAfter then some cl else none

/-- Model of `listCacheStorage.ListBlobs`: uncached prefixes go straight to the underlying
storage; cached prefixes are served from a valid cached listing, otherwise
re-listed from the underlying storage and persisted with a fresh TTL. -/
def listBlobs (cfg : LCConfig) (st : LCState) (pfx : String) (now : Int) :
    List String × LCState :=
  if isCachedPfx cfg pfx = false then (baseList st.base pfx, st)
  else
    match readBlobsFromCache st pfx now with
    | some cl => (cl.blobs, st)
    | none =>
      let all := baseList st.base pfx
      (all, { st with cacheStorage :=
        saveListToCache st.cacheStorage pfx ⟨now + cfg.cacheDuration, all⟩ })

/-- Model of `invalidateAfterUpdate`: drop the persisted listing of every cached prefix
the blob id starts with. -/
def invalidateAfterUpdate (cfg : LCConfig) (cs : List (String × CachedList))
    (blobID : String) : List (String × CachedList) :=
  cfg.prefixes.foldl
    (fun acc p => if strHasPfx p blobID then dropCachedList acc p else acc) cs

/-- Model of `listCacheStorage.PutBlob`: write to the underlying storage, then invalidate
matching cached listings. -/
def putBlob (cfg : LCConfig) (st : LCState) (id : String) (d : Data) : LCState :=
  { base := (st.base.filter (fun e => e.fst != id)) ++ [(id, d)]
    cacheStorage := invalidateAfterUpdate cfg st.cacheStorage id }

/-- Model of `listCacheStorage.DeleteBlob`: delete from the underlying storage, then
invalidate matching cached listings. -/
def deleteBlob (cfg : LCConfig) (st : LCState) (id : String) : LCState :=
  { base := st.base.filter (fun e => e.fst != id)
    cacheStorage := invalidateAfterUpdate cfg st.cacheStorage id }

end ListCache

namespace UserProfile

/-- A character of `[a-z0-9]` (the classes shared by `validUserRegexp` and
`validHostnameRegexp`). -/
def alnumChar (c : Char) : Bool := ('a' ≤ c && c ≤ 'z') || ('0' ≤ c && c ≤ '9')

/-- A character of `[a-z0-9\-_.]` (the inner class of `validUserRegexp`). -/
def userMidChar (c : Char) : Bool := alnumChar c || c = '-' || c = '_' || c = '.'

/-- A character of `[a-z0-9\-]` (the inner class of `validHostnameRegexp`). -/
def hostMidChar (c : Char) : Bool := alnumChar c || c = '-'

/-- Matcher for the anchored pattern `[a-z0-9]([mid]*[a-z0-9])*` shared by the
two regexps: since `[a-z0-9]` is contained in the inner class, the language is
exactly the nonempty strings over the inner class that begin and end with
`[a-z0-9]`. -/
def matchesNamePattern (mid : Char → Bool) (s : List Char) : Bool :=
  !s.isEmpty && alnumChar (s.headD ' ') && alnumChar (s.getLastD ' ') && s.all mid

/-- Go `strings.Split` on a single-character separator. -/
def splitOnChar (sep : Char) : List Char → List (List Char)
  | [] => [[]]
  | c :: cs =>
    if c = sep then [] :: splitOnChar sep cs
    else
      match splitOnChar sep cs with
      | [] => [[c]]
      | p :: ps => (c :: p) :: ps

/-- Model of `user.ValidateUsername`: the name must be nonempty and of the form
`user@hostname` with `user` matching `validUserRegexp` and `hostname` matching
`validHostnameRegexp`. -/
def validateUsername (name : String) : Bool :=
  if name.data.isEmpty then false
  else
    match splitOnChar '@' name.data with
    | [u, h] => matchesNamePattern userMidChar u && matchesNamePattern hostMidChar h
    | _ => false

/-- A manifest as the claim needs it: its id and its labels. -/
structure Manifest where
  mid : Nat
  labels : List (String × String)
deriving DecidableEq

/-- The manifest store state: current manifests plus a counter supplying fresh
manifest ids (kopia draws random ids; freshness is the property used). -/
structure MStore where
  manifests : List Manifest
  nextId : Nat
deriving DecidableEq

/-- Label subset-match (AND across keys), as in `manifest.Find`. -/
def labelsMatch (query : List (String × String)) (m : Manifest) : Bool :=
  query.all (fun kv => (m.labels.find? (fun e => e.fst == kv.fst)).map (·.snd) == some kv.snd)

/-- Model of `FindManifests` restricted to a label query. -/
def findManifests (st : MStore) (query : List (String × String)) : List Manifest :=
  st.manifests.filter (labelsMatch query)

/-- Model of `PutManifest`: append a new manifest with a fresh id, returning the id. -/
def putManifest (st : MStore) (labels : List (String × String)) : Nat × MStore :=
  (st.nextId, { manifests := st.manifests ++ [⟨st.nextId, labels⟩], nextId := st.nextId + 1 })

/-- Model of `DeleteManifest` by id. -/
def deleteManifest (st : MStore) (mid : Nat) : MStore :=
  { st with manifests := st.manifests.filter (fun m => m.mid != mid) }

/-- The labels `{type=user, username=<u>}` used by the user-profile manifests. -/
def userLabels (username : String) : List (String × String) :=
  [("type", "user"), ("username", username)]

/-- Model of `user.SetUserProfile`: validate the username, find the existing profile
manifests, write the new manifest, then delete the previously found ones;
returns the new manifest id (stored into `p.ManifestID`) and the final store. -/
def setUserProfile (st : MStore) (username : String) : Except Unit (Nat × MStore) :=
  if validateUsername username = false then .error ()
  else
    let found := findManifests st (userLabels username)
    let put := putManifest st (userLabels username)
    let st2 := found.foldl (fun s m => deleteManifest s m.mid) put.snd
    .ok (put.fst, st2)

/-- The intermediate store right after the new manifest is written and before
the old ones are deleted. -/
def setUserProfileMid (st : MStore) (username : String) : MStore :=
  (putManifest st (userLabels username)).snd

end UserProfile

namespace Treewalk

/-- An item together with the children its `ItemFunc` callback will report:
the model of a terminating, non-erroring discovery callback. -/
inductive ItemTree where
  | node (label : Nat) (children : List ItemTree)

/-- The item's label. -/
def ItemTree.label : ItemTree → Nat
  | .node l _ => l

/-- The children the callback reports for this item. -/
def ItemTree.kids : ItemTree → List ItemTree
  | .node _ cs => cs

/-- All labels processed when an item and all its transitively reported
children are processed (the item itself first). -/
def treeLabels : ItemTree → List Nat
  | .node l cs => l :: forestLabels cs
where
  /-- All labels of a list of items. -/
  forestLabels : List ItemTree → List Nat
  | [] => []
  | t :: ts => treeLabels t ++ forestLabels ts

/-- The decision of `queue.dequeueDisc` once its `for q.queued == 0 && q.active > 0`
wait loop has exited: with no queued item it reports no-more-work, otherwise it
takes one item, decrementing `queued` and incrementing `active`. -/
def dequeueDisc (queued active : Nat) : Option (Nat × Nat) :=
  if queued = 0 then none else some (queued - 1, active + 1)

/-- A configuration of `InParallel`: the items that still have to be processed
(queued or being reported), and the labels already processed, in completion
order. -/
structure WalkState where
  pending : List ItemTree
  processed : List Nat

/-- One processing step: some worker — a pooled goroutine after `dequeueDisc`,
or the reporting goroutine running `itemFunc` inline in `queueOrRun` when the
channel is full — picks one pending item, runs the callback on it, and the
children it reports become pending. -/
inductive WalkStep : WalkState → WalkState → Prop where
  | process (pre post : List ItemTree) (t : ItemTree) (processed : List Nat) :
      WalkStep ⟨pre ++ t :: post, processed⟩
               ⟨pre ++ t.kids ++ post, processed ++ [t.label]⟩

/-- Total number of items that remain to be processed. -/
def walkMeasure (s : WalkState) : Nat :=
  (treeLabels.forestLabels s.pending).length

end Treewalk

namespace Maintenance

/-- One recorded snapshot-GC run (its start instant and whether it succeeded). -/
structure RunInfo where
  start : Int
  success : Bool
deriving DecidableEq

/-- The maintenance safety parameters used by the drop-deleted-contents rule. -/
structure SafetyParams where
  marginBetweenSnapshotGC : Int
  dropContentFromIndexExtraMargin : Int
deriving DecidableEq

/-- The largest element of a list of instants. -/
def maxStart : List Int → Option Int
  | [] => none
  | x :: xs => some (xs.foldl max x)

/-- Start times of the successful GC runs in the recorded history. -/
def successfulStarts (runs : List RunInfo) : List Int :=
  (runs.filter (·.success)).map (·.start)

/-- Modelled from the spec: `findSafeDropTime`
(repo/maintenance/maintenance_run.go is not among the sources; only its
analysis notes and tests are).  Spec section 4.9, drop deleted contents:
safe drop time requires at least 2 successful GC runs in history and spacing
between the two newest GC runs of at least `MarginBetweenSnapshotGC`; the safe
drop time is then the previous (second newest) GC start minus
`DropContentFromIndexExtraMargin`. -/
def findSafeDropTime (runs : List RunInfo) (safety : SafetyParams) : Option Int :=
  match maxStart (successfulStarts runs) with
  | none => none
  | some newest =>
    match maxStart ((successfulStarts runs).erase newest) with
    | none => none
    | some prev =>
      if safety.marginBetweenSnapshotGC ≤ newest - prev
      then some (prev - safety.dropContentFromIndexExtraMargin)
      else none

/-- A content index entry as the claim needs it: content id, index timestamp
and tombstone flag. -/
structure IndexEntry where
  cid : Nat
  ts : Int
  deleted : Bool
deriving DecidableEq

/-- Modelled from the spec: a tombstone is dropped when its timestamp is at or
before the safe drop time (spec section 4.9: for every tombstone whose safe
drop time is in the past, emit a compaction that omits the entry entirely). -/
def shouldDrop (e : IndexEntry) (runs : List RunInfo) (safety : SafetyParams) : Bool :=
  e.deleted &&
    match findSafeDropTime runs safety with
    | none => false
    | some t => decide (e.ts ≤ t)

/-- Modelled from the spec: the compacted index emitted by the
drop-deleted-contents task — every entry except the droppable tombstones. -/
def dropDeletedContents (entries : List IndexEntry) (runs : List RunInfo)
    (safety : SafetyParams) : List IndexEntry :=
  entries.filter (fun e => !shouldDrop e runs safety)

end Maintenance

namespace FormatMgr

/-- A stored blob: id, backend timestamp, payload bytes. -/
structure BlobRec where
  bid : String
  ts : Int
  data : List Nat
deriving DecidableEq

/-- The state rollback acts on: whether an upgrade lock intent is present in the
repository config, and the backend blobs. -/
structure FmtState where
  upgradeLock : Bool
  blobs : List BlobRec
deriving DecidableEq

/-- Model of `format.BackupBlobIDPrefix`. -/
def backupPfx : String := "kopia.repository.backup."

/-- Model of `format.KopiaRepositoryBlobID`, the format blob id. -/
def kopiaRepositoryBlobID : String := "kopia.repository"

/-- Go `strings.HasPrefix` on blob ids. -/
def hasPfx (p s : String) : Bool := p.data.isPrefixOf s.data

/-- Model of `ListBlobs` with a prefix: the matching blobs in backend order. -/
def listPfx (st : FmtState) (p : String) : List BlobRec :=
  st.blobs.filter (fun b => hasPfx p b.bid)

/-- Model of `DeleteBlob`. -/
def deleteB (st : FmtState) (id : String) : FmtState :=
  { st with blobs := st.blobs.filter (fun b => b.bid != id) }

/-- Model of `GetBlob` (full contents). -/
def getB (st : FmtState) (id : String) : Option (List Nat) :=
  (st.blobs.find? (fun b => b.bid == id)).map (·.data)

/-- Model of `PutBlob` at the given backend timestamp. -/
def putB (st : FmtState) (id : String) (d : List Nat) (now : Int) : FmtState :=
  { st with blobs := st.blobs.filter (fun b => b.bid != id) ++ [⟨id, now, d⟩] }

/-- The `ListBlobs` callback loop of `Manager.RollbackUpgrade`: scan the backup
blobs keeping the oldest candidate seen so far (strictly smaller timestamp
replaces it) and delete every backup that is not the current candidate. -/
def rollbackLoop (st : FmtState) (listing : List BlobRec) (oldest : Option BlobRec) :
    FmtState × Option BlobRec :=
  match listing with
  | [] => (st, oldest)
  | bm :: rest =>
    match oldest with
    | none => rollbackLoop st rest (some bm)
    | some ob =>
      if bm.ts < ob.ts then rollbackLoop (deleteB st ob.bid) rest (some bm)
      else rollbackLoop (deleteB st bm.bid) rest (some ob)

/-- The candidate tracking of the rollback scan, as a fold: the running oldest
candidate after the whole listing is scanned (strictly smaller timestamps
replace the candidate, so the first listing element among equal timestamps
wins). -/
def oldestCandidate (start : BlobRec) (l : List BlobRec) : BlobRec :=
  l.foldl (fun acc x => if x.ts < acc.ts then x else acc) start

/-- Errors surfaced by `RollbackUpgrade` as the model needs them. -/
inductive RollbackErr where
  | noUpgrade
  | readFailed
deriving DecidableEq

/-- Model of `Manager.RollbackUpgrade`: requires an upgrade in progress; scans the
`kopia.repository.backup.*` blobs deleting all but the oldest; if a backup was
found, reads it, writes its bytes as the `kopia.repository` format blob and
deletes that backup. -/
def rollbackUpgrade (st : FmtState) (now : Int) : Except RollbackErr FmtState :=
  if st.upgradeLock = false then .error .noUpgrade
  else
    match (rollbackLoop st (listPfx st backupPfx) none).snd with
    | none => .ok (rollbackLoop st (listPfx st backupPfx) none).fst
    | some ob =>
      match getB (rollbackLoop st (listPfx st backupPfx) none).fst ob.bid with
      | none => .error .readFailed
      | some d =>
        .ok (deleteB (putB (rollbackLoop st (listPfx st backupPfx) none).fst
              kopiaRepositoryBlobID d now) ob.bid)

/-- A concrete repository state with an upgrade lock and two backup blobs of
different ages: backup `a` (timestamp 1, bytes `[65]`) is older than backup `b`
(timestamp 2, bytes `[66]`). -/
def twoBackupState : FmtState :=
  ⟨true, [⟨"kopia.repository", 0, [70]⟩, ⟨"kopia.repository.backup.a", 1, [65]⟩,
    ⟨"kopia.repository.backup.b", 2, [66]⟩]⟩

/-- Definition following the spec's words, for comparison with the code: the
most recent (largest-timestamp) backup format blob. -/
def mostRecentBackup (st : FmtState) : Option BlobRec :=
  (listPfx st backupPfx).foldl
    (fun acc b =>
      match acc with
      | none => some b
      | some m => if m.ts < b.ts then some b else some m) none

end FormatMgr

namespace Gather

theorem lastChunk_append_single (l : List Data) (v : Data) : lastChunk (l ++ [v]) = v := by
  induction l with
  | nil => rfl
  | cons c rest ih =>
    cases rest with
    | nil => rfl
    | cons c2 rest2 => simpa [lastChunk] using ih

theorem setLast_ne_nil (l : List Data) (v : Data) (h : l ≠ []) : setLast l v ≠ [] := by
  cases l with
  | nil => exact absurd rfl h
  | cons c rest => cases rest <;> simp [setLast]

theorem flatten_setLast (l : List Data) (v : Data) (h : l ≠ []) :
    (setLast l v).flatten = l.dropLast.flatten ++ v := by
  induction l with
  | nil => exact absurd rfl h
  | cons c rest ih =>
    cases rest with
    | nil => simp [setLast]
    | cons c2 rest2 =>
      simp only [setLast, List.flatten_cons, List.dropLast_cons_of_ne_nil (List.cons_ne_nil c2 rest2)]
      rw [ih (List.cons_ne_nil c2 rest2)]
      simp [List.append_assoc]

theorem flatten_eq_dropLast_append_lastChunk (l : List Data) (h : l ≠ []) :
    l.flatten = l.dropLast.flatten ++ lastChunk l := by
  induction l with
  | nil => exact absurd rfl h
  | cons c rest ih =>
    cases rest with
    | nil => simp [lastChunk]
    | cons c2 rest2 =>
      have h2 := ih (List.cons_ne_nil c2 rest2)
      calc (c :: c2 :: rest2).flatten = c ++ (c2 :: rest2).flatten := by simp
        _ = c ++ ((c2 :: rest2).dropLast.flatten ++ lastChunk (c2 :: rest2)) := by rw [h2]
        _ = (c :: c2 :: rest2).dropLast.flatten ++ lastChunk (c :: c2 :: rest2) := by
            simp [lastChunk, List.dropLast_cons_of_ne_nil (List.cons_ne_nil c2 rest2),
              List.append_assoc]

theorem appendLoop_flatten (cs : Nat) (hcs : 0 < cs) :
    ∀ (fuel : Nat) (slices : List Data) (data : Data),
      data.length ≤ fuel → slices ≠ [] →
      (appendLoop cs fuel slices data).flatten = slices.flatten ++ data := by
  intro fuel
  induction fuel with
  | zero =>
    intro slices data hlen _
    have : data = [] := List.length_eq_zero.mp (Nat.le_zero.mp hlen)
    subst this
    simp [appendLoop]
  | succ fuel ih =>
    intro slices data hlen hne
    cases data with
    | nil => simp [appendLoop]
    | cons d ds =>
      simp only [appendLoop]
      set slices1 := if cs - (lastChunk slices).length = 0 then slices ++ [[]] else slices with hs1
      set n := min (cs - (lastChunk slices1).length) (d :: ds).length with hn
      have hs1ne : slices1 ≠ [] := by
        rw [hs1]
        by_cases h : cs - (lastChunk slices).length = 0
        · simp [h]
        · simpa [h] using hne
      have hs1flat : slices1.flatten = slices.flatten := by
        rw [hs1]
        by_cases h : cs - (lastChunk slices).length = 0 <;> simp [h]
      have hnpos : 0 < n := by
        rw [hn]
        apply Nat.lt_min.mpr
        constructor
        · rw [hs1]
          by_cases h : cs - (lastChunk slices).length = 0
          · simpa [h, lastChunk_append_single] using hcs
          · simpa [h] using Nat.pos_of_ne_zero h
        · simp
      have hrec := ih (setLast slices1 (lastChunk slices1 ++ (d :: ds).take n)) ((d :: ds).drop n)
        (by
          simp only [List.length_drop]
          have : (d :: ds).length ≤ fuel + 1 := hlen
          omega)
        (setLast_ne_nil _ _ hs1ne)
      rw [hrec, flatten_setLast _ _ hs1ne, ← List.append_assoc,
        List.append_assoc (slices1.dropLast.flatten ++ lastChunk slices1),
        List.take_append_drop, ← flatten_eq_dropLast_append_lastChunk _ hs1ne, hs1flat]

theorem wbAppend_flatten (cs : Nat) (hcs : 0 < cs) (slices : List Data) (data : Data) :
    (wbAppend cs slices data).flatten = slices.flatten ++ data := by
  unfold wbAppend
  by_cases h : slices.length = 0
  · have : slices = [] := List.length_eq_zero.mp h
    subst this
    simpa [h] using appendLoop_flatten cs hcs data.length [[]] data (Nat.le_refl _) (by simp)
  · have hne : slices ≠ [] := by
      intro hs
      exact h (by simp [hs])
    simpa [h] using appendLoop_flatten cs hcs data.length slices data (Nat.le_refl _) hne

theorem runAppends_flatten (cs : Nat) (hcs : 0 < cs) (datas : List Data) :
    ∀ acc : List Data, (datas.foldl (fun s d => wbAppend cs s d) acc).flatten
      = acc.flatten ++ datas.flatten := by
  induction datas with
  | nil => intro acc; simp
  | cons d ds ih =>
    intro acc
    simp only [List.foldl_cons, List.flatten_cons]
    rw [ih (wbAppend cs acc d), wbAppend_flatten cs hcs, List.append_assoc]

/-- C8: for every sequence of `Append` calls on a fresh gather `WriteBuffer`
(with any positive chunk size), `Length()` equals the sum of the lengths of all
appended byte slices and `ToByteSlice()` equals their concatenation in append
order, independently of how the data is split across the internal fixed-size
chunks; `Write(data)` always reports `(len(data), nil)`. -/
theorem C8_write_buffer_append (cs : Nat) (hcs : 0 < cs) (datas : List (List Nat)) :
    bytesLength (runAppends cs datas) = (datas.map List.length).sum ∧
    toByteSlice (runAppends cs datas) = datas.flatten ∧
    (∀ (slices : List (List Nat)) (data : List Nat),
      (wbWrite cs slices data).snd = (data.length, none)) := by
  have hflat : (runAppends cs datas).flatten = datas.flatten := by
    simpa using runAppends_flatten cs hcs datas []
  refine ⟨?_, hflat, fun slices data => rfl⟩
  have h1 : bytesLength (runAppends cs datas) = (runAppends cs datas).flatten.length := by
    simp [bytesLength, List.length_flatten]
  have h2 : (datas.map List.length).sum = datas.flatten.length := by
    simp [List.length_flatten]
  rw [h1, h2, hflat]

/-- Witness for C8 at chunk size 2 with appends `[1,2,3]` and `[4]`. -/
theorem C8_write_buffer_append_witness :
    bytesLength (runAppends 2 [[1, 2, 3], [4]]) = 4 ∧
    toByteSlice (runAppends 2 [[1, 2, 3], [4]]) = [1, 2, 3, 4] := by
  have h := C8_write_buffer_append 2 (by decide) [[1, 2, 3], [4]]
  exact ⟨h.1.trans (by decide), h.2.1.trans (by decide)⟩

end Gather

namespace Cached

/-- C5: for every blob held in the read cache with data of `n` bytes,
`GetBlob(id, offset, length)` serves the cached data: with `length == -1` it
returns exactly `data[offset..n)`; it fails with `ErrInvalidRange` when
`offset < 0` or `offset` is at or past the end of the data, and, for
`length >= 0`, when `offset+length > n`; otherwise it returns exactly
`data[offset..offset+length)`. -/
theorem C5_cached_get_range (st : CState) (id : String) (data : Data)
    (offset length : Int) (hcache : lookupBlob st.cache id = some data) :
    (getBlob st id offset length = serveBlobFromCache data offset length) ∧
    ((offset < 0 ∨ (data.length : Int) ≤ offset) →
      getBlob st id offset length = .error .invalidRange) ∧
    (0 ≤ offset → offset < (data.length : Int) → length = -1 →
      getBlob st id offset length = .ok (data.drop offset.toNat)) ∧
    (0 ≤ offset → offset < (data.length : Int) → 0 ≤ length →
      (data.length : Int) < offset + length →
      getBlob st id offset length = .error .invalidRange) ∧
    (0 ≤ offset → offset < (data.length : Int) → 0 ≤ length →
      offset + length ≤ (data.length : Int) →
      getBlob st id offset length = .ok ((data.drop offset.toNat).take length.toNat)) := by
  have hserve : getBlob st id offset length = serveBlobFromCache data offset length := by
    simp [getBlob, hcache]
  refine ⟨hserve, ?_, ?_, ?_, ?_⟩
  · intro h
    rw [hserve]
    unfold serveBlobFromCache
    split_ifs with h1 h2 h3 <;> first | rfl | (exfalso; omega)
  · intro h1 h2 h3
    rw [hserve]
    unfold serveBlobFromCache
    split_ifs with g1 g2 g3 <;> first | rfl | (exfalso; omega)
  · intro h1 h2 h3 h4
    rw [hserve]
    unfold serveBlobFromCache
    split_ifs with g1 g2 g3 <;> first | rfl | (exfalso; omega)
  · intro h1 h2 h3 h4
    rw [hserve]
    unfold serveBlobFromCache
    split_ifs with g1 g2 g3 <;> first | rfl | (exfalso; omega)

/-- Witness for C5: a blob of 3 bytes cached under id `b`, read at offset 1 with
length -1 and with an out-of-range offset. -/
theorem C5_cached_get_range_witness :
    getBlob ⟨[], [("b", [10, 11, 12])]⟩ "b" 1 (-1) = .ok [11, 12] ∧
    getBlob ⟨[], [("b", [10, 11, 12])]⟩ "b" 3 (-1) = .error .invalidRange := by
  have h := C5_cached_get_range ⟨[], [("b", [10, 11, 12])]⟩ "b" [10, 11, 12] 1 (-1) (by decide)
  have h2 := C5_cached_get_range ⟨[], [("b", [10, 11, 12])]⟩ "b" [10, 11, 12] 3 (-1) (by decide)
  exact ⟨h.2.2.1 (by decide) (by decide) rfl, h2.2.1 (Or.inr (by decide))⟩

/-- C10: for every blob id on which the wrapper's action function returns
`Ignore`, `PutBlob` returns success while leaving both the in-memory cache and
the underlying base storage completely unchanged; a subsequent `GetBlob` through
the wrapper returns exactly what the base storage returns, in particular
`ErrBlobNotFound` when the blob was never stored there. -/
theorem C10_cached_put_ignore (af : String → BlobAction) (st : CState)
    (id : String) (d : Data) (hig : af id = .ignore) :
    putBlob af st id d = (.ok (), st) ∧
    (∀ offset length, lookupBlob st.cache id = none →
      getBlob (putBlob af st id d).snd id offset length
        = mapGet st.base id offset length) ∧
    (lookupBlob st.cache id = none → lookupBlob st.base id = none →
      ∀ offset length,
        getBlob (putBlob af st id d).snd id offset length = .error .notFound) := by
  have hput : putBlob af st id d = (.ok (), st) := by
    simp [putBlob, hig]
  refine ⟨hput, ?_, ?_⟩
  · intro offset length hmiss
    rw [hput]
    simp [getBlob, hmiss]
  · intro hmiss hbase offset length
    rw [hput]
    simp [getBlob, hmiss, mapGet, hbase]

/-- Witness for C10: the test scenario — wrapper ignoring prefix `p` over empty
base storage, `PutBlob` of id `ptest` succeeds, stores nothing, and a later
`GetBlob` reports `ErrBlobNotFound`. -/
theorem C10_cached_put_ignore_witness :
    putBlob (ignorePfxsActionFunc ["p"]) ⟨[], []⟩ "ptest" [1, 2] = (.ok (), ⟨[], []⟩) ∧
    getBlob (putBlob (ignorePfxsActionFunc ["p"]) ⟨[], []⟩ "ptest" [1, 2]).snd
      "ptest" 0 (-1) = .error .notFound := by
  have h := C10_cached_put_ignore (ignorePfxsActionFunc ["p"]) ⟨[], []⟩ "ptest" [1, 2] (by decide)
  exact ⟨h.1, h.2.2 (by decide) (by decide) 0 (-1)⟩

end Cached

/-- C6 counterexample: the claim says a delete of a missing id surfaces the
NotFound error from the local packed cache storage; but
`PackedStorage.DeleteBlob` on the empty storage and missing id `x` returns
success, not NotFound. -/
theorem C6_delete_missing_counterexample :
    (PackedCache.deleteBlob PackedCache.initState "x").fst = .ok () ∧
    (PackedCache.deleteBlob PackedCache.initState "x").fst ≠ .error .notFound :=
  ⟨rfl, by decide⟩

/-- C6 (amended): deleting a missing blob id through the cached wrapper surfaces
the base storage's distinguished NotFound error; the local packed cache
storage's `DeleteBlob`, however, always returns success, silently, even for a
missing id. -/
theorem C6_delete_missing_amended (st : Cached.CState) (ps : PackedCache.PState)
    (id : String) (hbase : Cached.lookupBlob st.base id = none) :
    (Cached.deleteBlob st id).fst = .error .notFound ∧
    (PackedCache.deleteBlob ps id).fst = .ok () := by
  constructor
  · simp [Cached.deleteBlob, Cached.mapDelete, hbase]
  · rfl

/-- Witness for C6 (amended) on the empty wrapper state and missing id `x`. -/
theorem C6_delete_missing_amended_witness :
    (Cached.deleteBlob ⟨[], []⟩ "x").fst = .error .notFound ∧
    (PackedCache.deleteBlob PackedCache.initState "x").fst = .ok () :=
  C6_delete_missing_amended ⟨[], []⟩ PackedCache.initState "x" (by decide)

namespace PackedCache

theorem maxBlobLen_append_single (p : List Nat) (len : Nat) :
    maxBlobLen (p ++ [len]) = max (maxBlobLen p) len := by
  simp [maxBlobLen, List.foldl_append]

theorem packLen_append_single (p : List Nat) (len : Nat) :
    packLen (p ++ [len]) = packLen p + len := by
  simp [packLen]

theorem putBlob_bound_invariant (puts : List (String × Nat)) :
    ∀ st : PState,
      (∀ p ∈ st.closedPacks, packLen p ≤ max packSize (maxBlobLen p)) →
      st.currentOffset = packLen st.currentLens →
      packLen st.currentLens ≤ max packSize (maxBlobLen st.currentLens) →
      (∀ p ∈ (runPuts st puts).closedPacks, packLen p ≤ max packSize (maxBlobLen p)) ∧
      (runPuts st puts).currentOffset = packLen (runPuts st puts).currentLens ∧
      packLen (runPuts st puts).currentLens
        ≤ max packSize (maxBlobLen (runPuts st puts).currentLens) := by
  induction puts with
  | nil =>
    intro st h1 h2 h3
    exact ⟨h1, h2, h3⟩
  | cons pr rest ih =>
    intro st h1 h2 h3
    have hstep : runPuts st (pr :: rest) = runPuts (putBlob st pr.fst pr.snd).fst rest := rfl
    rw [hstep]
    apply ih
    · -- closed packs after one put
      intro p hp
      by_cases hrot : st.hasCurrent = false ∨ st.currentOffset + pr.snd > packSize
      · simp only [putBlob, if_pos hrot, rotatePackFile] at hp
        rcases List.mem_append.mp hp with hold | hnew
        · exact h1 p hold
        · by_cases hc : st.hasCurrent
          · simp [hc] at hnew
            subst hnew
            exact h3
          · simp [hc] at hnew
      · simp only [putBlob, if_neg hrot] at hp
        exact h1 p hp
    · -- offset tracks the sum
      by_cases hrot : st.hasCurrent = false ∨ st.currentOffset + pr.snd > packSize
      · simp [putBlob, if_pos hrot, rotatePackFile, packLen]
      · simp only [putBlob, if_neg hrot]
        simp [packLen_append_single, h2]
    · -- current pack within bound
      by_cases hrot : st.hasCurrent = false ∨ st.currentOffset + pr.snd > packSize
      · simp only [putBlob, if_pos hrot, rotatePackFile]
        simp only [List.nil_append]
        have : maxBlobLen [pr.snd] = pr.snd := by simp [maxBlobLen]
        rw [this]
        simp only [packLen, List.sum_cons, List.sum_nil, Nat.add_zero]
        exact le_max_right _ _
      · simp only [putBlob, if_neg hrot]
        rw [packLen_append_single]
        rw [← h2]
        have hle : st.currentOffset + pr.snd ≤ packSize := by
          push_neg at hrot
          exact hrot.2
        exact le_trans hle (le_max_left _ _)

/-- C7: for every sequence of `PutBlob` calls on a local packed cache storage, a
new pack file is started exactly when there is no current pack or the current
pack's write offset plus the incoming blob's length would exceed 20 MiB;
consequently every pack file (rotated or current) has final length at most
`max(20 MiB, largest single blob written to it)`. -/
theorem C7_pack_rotation_bound :
    (∀ (st : PState) (id : String) (len : Nat),
      (putBlob st id len).snd = true ↔
        (st.hasCurrent = false ∨ st.currentOffset + len > packSize)) ∧
    (∀ puts : List (String × Nat),
      ∀ p ∈ (runPuts initState puts).closedPacks ++ [(runPuts initState puts).currentLens],
        packLen p ≤ max packSize (maxBlobLen p)) := by
  constructor
  · intro st id len
    simp [putBlob]
  · intro puts p hp
    have h := putBlob_bound_invariant puts initState (by simp [initState]) (by simp [initState, packLen]) (by simp [initState, packLen, maxBlobLen])
    rcases List.mem_append.mp hp with hc | hcur
    · exact h.1 p hc
    · simp only [List.mem_singleton] at hcur
      subst hcur
      exact h.2.2

/-- Witness for C7: three puts of sizes 10 MiB, 15 MiB and 25 MiB; the second
and third rotate, and every produced pack obeys the bound. -/
theorem C7_pack_rotation_bound_witness :
    ((PackedCache.putBlob PackedCache.initState "a" 5).snd = true) ∧
    (PackedCache.packLen [10485760, 5242880] ≤
      max PackedCache.packSize (PackedCache.maxBlobLen [10485760, 5242880])) := by
  have h := C7_pack_rotation_bound
  constructor
  · exact (h.1 PackedCache.initState "a" 5).mpr (Or.inl rfl)
  · have h2 := h.2 [("a", 10485760), ("b", 5242880)]
    have hm : [10485760, 5242880]
        ∈ (PackedCache.runPuts PackedCache.initState [("a", 10485760), ("b", 5242880)]).closedPacks
          ++ [(PackedCache.runPuts PackedCache.initState
                [("a", 10485760), ("b", 5242880)]).currentLens] := by decide
    exact h2 [10485760, 5242880] hm

end PackedCache

namespace ListCache

theorem lookupCache_drop_self (cs : List (String × CachedList)) (p : String) :
    lookupCache (dropCachedList cs p) p = none := by
  unfold lookupCache dropCachedList
  rw [Option.map_eq_none']
  rw [List.find?_eq_none]
  intro x hx
  have := List.of_mem_filter hx
  simp only [bne_iff_ne, ne_eq] at this
  simp only [beq_iff_eq]
  exact this

theorem lookupCache_drop_none (cs : List (String × CachedList)) (p q : String)
    (h : lookupCache cs p = none) : lookupCache (dropCachedList cs q) p = none := by
  unfold lookupCache dropCachedList
  unfold lookupCache at h
  rw [Option.map_eq_none'] at h ⊢
  rw [List.find?_eq_none] at h ⊢
  intro x hx
  exact h x (List.mem_of_mem_filter hx)

theorem invalidate_foldl_removes (id p : String) :
    ∀ (pfxs : List String) (cs : List (String × CachedList)),
      ((p ∈ pfxs ∧ strHasPfx p id = true) ∨ lookupCache cs p = none) →
      lookupCache
        (pfxs.foldl (fun acc q => if strHasPfx q id then dropCachedList acc q else acc) cs) p
        = none := by
  intro pfxs
  induction pfxs with
  | nil =>
    intro cs h
    rcases h with ⟨hmem, _⟩ | hnone
    · exact absurd hmem (List.not_mem_nil p)
    · exact hnone
  | cons q rest ih =>
    intro cs h
    simp only [List.foldl_cons]
    rcases h with ⟨hmem, hpfx⟩ | hnone
    · rcases List.mem_cons.mp hmem with heq | hrest
      · subst heq
        apply ih
        right
        rw [if_pos hpfx]
        exact lookupCache_drop_self cs p
      · exact ih _ (Or.inl ⟨hrest, hpfx⟩)
    · apply ih
      right
      by_cases hq : strHasPfx q id = true
      · rw [if_pos hq]
        exact lookupCache_drop_none cs p q hnone
      · rw [if_neg hq]
        exact hnone

theorem isCachedPfx_of_mem (cfg : LCConfig) (p : String) (hp : p ∈ cfg.prefixes) :
    isCachedPfx cfg p = true := by
  unfold isCachedPfx
  rw [List.any_eq_true]
  exact ⟨p, hp, beq_self_eq_true p⟩

theorem listBlobs_after_invalidation (cfg : LCConfig) (st : LCState) (p : String) (now : Int)
    (hp : p ∈ cfg.prefixes) (hnone : lookupCache st.cacheStorage p = none) :
    (listBlobs cfg st p now).fst = baseList st.base p := by
  unfold listBlobs
  rw [isCachedPfx_of_mem cfg p hp]
  simp only [Bool.true_eq_false, if_false]
  unfold readBlobsFromCache
  rw [hnone]

/-- C3: for every blob id and every cached prefix `p` of the list-cache wrapper,
if the id starts with `p` then `PutBlob` and `DeleteBlob` through the wrapper
delete the persisted cached listing for `p`, so a subsequent `ListBlobs(p)`
issued at any instant (in particular before the TTL expires) re-lists from the
underlying storage and therefore observes the new (respectively removed)
blob. -/
theorem C3_list_cache_invalidation (cfg : LCConfig) (st : LCState)
    (p id : String) (d : Data) (now : Int)
    (hp : p ∈ cfg.prefixes) (hpfx : strHasPfx p id = true) :
    (lookupCache (putBlob cfg st id d).cacheStorage p = none) ∧
    ((listBlobs cfg (putBlob cfg st id d) p now).fst = baseList (putBlob cfg st id d).base p) ∧
    (id ∈ (listBlobs cfg (putBlob cfg st id d) p now).fst) ∧
    (lookupCache (deleteBlob cfg st id).cacheStorage p = none) ∧
    ((listBlobs cfg (deleteBlob cfg st id) p now).fst = baseList (deleteBlob cfg st id).base p) ∧
    (id ∉ (listBlobs cfg (deleteBlob cfg st id) p now).fst) := by
  have hputinv : lookupCache (putBlob cfg st id d).cacheStorage p = none := by
    unfold putBlob invalidateAfterUpdate
    exact invalidate_foldl_removes id p cfg.prefixes st.cacheStorage (Or.inl ⟨hp, hpfx⟩)
  have hdelinv : lookupCache (deleteBlob cfg st id).cacheStorage p = none := by
    unfold deleteBlob invalidateAfterUpdate
    exact invalidate_foldl_removes id p cfg.prefixes st.cacheStorage (Or.inl ⟨hp, hpfx⟩)
  have hputlist := listBlobs_after_invalidation cfg (putBlob cfg st id d) p now hp hputinv
  have hdellist := listBlobs_after_invalidation cfg (deleteBlob cfg st id) p now hp hdelinv
  refine ⟨hputinv, hputlist, ?_, hdelinv, hdellist, ?_⟩
  · rw [hputlist]
    unfold putBlob baseList
    simp only [List.filter_append, List.map_append]
    apply List.mem_append.mpr
    right
    simp [hpfx]
  · rw [hdellist]
    unfold deleteBlob baseList
    intro hmem
    simp only [List.mem_map] at hmem
    obtain ⟨e, he, hefst⟩ := hmem
    have he2 := List.mem_of_mem_filter he
    have := List.of_mem_filter he2
    rw [hefst] at this
    simp at this

/-- Witness for C3: prefix `n`, a stale cached listing for `n`, a put of blob
`n1` and a delete of blob `n0`. -/
theorem C3_list_cache_invalidation_witness :
    (lookupCache (putBlob ⟨["n"], 60⟩ ⟨[("n0", [7])], [("n", ⟨100, ["n0"]⟩)]⟩ "n1" [8]).cacheStorage
      "n" = none) ∧
    ("n1" ∈ (listBlobs ⟨["n"], 60⟩
      (putBlob ⟨["n"], 60⟩ ⟨[("n0", [7])], [("n", ⟨100, ["n0"]⟩)]⟩ "n1" [8]) "n" 0).fst) ∧
    ("n0" ∉ (listBlobs ⟨["n"], 60⟩
      (deleteBlob ⟨["n"], 60⟩ ⟨[("n0", [7])], [("n", ⟨100, ["n0"]⟩)]⟩ "n0") "n" 0).fst) := by
  have h1 := C3_list_cache_invalidation ⟨["n"], 60⟩ ⟨[("n0", [7])], [("n", ⟨100, ["n0"]⟩)]⟩
    "n" "n1" [8] 0 (by decide) (by decide)
  have h2 := C3_list_cache_invalidation ⟨["n"], 60⟩ ⟨[("n0", [7])], [("n", ⟨100, ["n0"]⟩)]⟩
    "n" "n0" [7] 0 (by decide) (by decide)
  exact ⟨h1.1, h1.2.2.1, h2.2.2.2.2.2⟩

end ListCache

namespace UserProfile

theorem userLabels_self_match (u : String) (n : Nat) :
    labelsMatch (userLabels u) ⟨n, userLabels u⟩ = true := by
  simp [labelsMatch, userLabels]

theorem foldl_delete_eq (found : List Manifest) :
    ∀ st0 : MStore,
      found.foldl (fun s m => deleteManifest s m.mid) st0
        = ⟨st0.manifests.filter (fun m => !((found.map Manifest.mid).contains m.mid)),
           st0.nextId⟩ := by
  induction found with
  | nil =>
    intro st0
    simp
  | cons f rest ih =>
    intro st0
    simp only [List.foldl_cons]
    rw [ih (deleteManifest st0 f.mid)]
    unfold deleteManifest
    simp only [List.filter_filter, List.map_cons]
    congr 1
    apply List.filter_congr
    intro m _
    by_cases h : m.mid = f.mid <;> simp [List.contains_cons, Bool.not_or, h]

theorem contains_found_iff (st : MStore) (q : List (String × String))
    (hnodup : (st.manifests.map Manifest.mid).Nodup) (m : Manifest) (hm : m ∈ st.manifests) :
    ((findManifests st q).map Manifest.mid).contains m.mid = labelsMatch q m := by
  cases hmatch : labelsMatch q m with
  | true =>
    have hmem : m ∈ findManifests st q := List.mem_filter.mpr ⟨hm, hmatch⟩
    have : m.mid ∈ (findManifests st q).map Manifest.mid := List.mem_map.mpr ⟨m, hmem, rfl⟩
    simpa using this
  | false =>
    by_contra hcon
    have hc : ((findManifests st q).map Manifest.mid).contains m.mid = true := by
      cases h2 : ((findManifests st q).map Manifest.mid).contains m.mid with
      | true => rfl
      | false => exact absurd h2 (by rw [← hmatch] at hcon ⊢; exact fun h3 => hcon h3)
    have : m.mid ∈ (findManifests st q).map Manifest.mid := by simpa using hc
    obtain ⟨m2, hm2, hmid⟩ := List.mem_map.mp this
    have hm2' := List.mem_of_mem_filter hm2
    have hmatch2 := List.of_mem_filter hm2
    have heq : m2 = m := List.inj_on_of_nodup_map hnodup hm2' hm hmid
    rw [heq] at hmatch2
    rw [hmatch2] at hmatch
    exact Bool.true_eq_false.mp hmatch

theorem new_id_not_in_found (st : MStore) (q : List (String × String))
    (hfresh : ∀ m ∈ st.manifests, m.mid < st.nextId) :
    ((findManifests st q).map Manifest.mid).contains st.nextId = false := by
  cases h : ((findManifests st q).map Manifest.mid).contains st.nextId with
  | false => rfl
  | true =>
    have : st.nextId ∈ (findManifests st q).map Manifest.mid := by simpa using h
    obtain ⟨m2, hm2, hmid⟩ := List.mem_map.mp this
    have := hfresh m2 (List.mem_of_mem_filter hm2)
    omega

/-- C4: for every profile with a valid username, `SetUserProfile` succeeds and
afterwards the store contains exactly one manifest labelled
`type=user, username=<u>` — the newly written one, whose id is returned (and
stored into the profile); every manifest that previously carried those labels
has been deleted, all other manifests are untouched, and the new manifest is
written before the old ones are deleted (both coexist in the intermediate
store). -/
theorem C4_set_user_profile (st : MStore) (u : String)
    (hval : validateUsername u = true)
    (hnodup : (st.manifests.map Manifest.mid).Nodup)
    (hfresh : ∀ m ∈ st.manifests, m.mid < st.nextId) :
    (setUserProfile st u
      = .ok (st.nextId,
          ⟨st.manifests.filter (fun m => !labelsMatch (userLabels u) m)
             ++ [⟨st.nextId, userLabels u⟩], st.nextId + 1⟩)) ∧
    (findManifests
        ⟨st.manifests.filter (fun m => !labelsMatch (userLabels u) m)
           ++ [⟨st.nextId, userLabels u⟩], st.nextId + 1⟩ (userLabels u)
      = [⟨st.nextId, userLabels u⟩]) ∧
    (∀ m ∈ findManifests st (userLabels u),
      m ∉ st.manifests.filter (fun m2 => !labelsMatch (userLabels u) m2)
             ++ [(⟨st.nextId, userLabels u⟩ : Manifest)]) ∧
    ((⟨st.nextId, userLabels u⟩ : Manifest) ∈ (setUserProfileMid st u).manifests ∧
      ∀ m ∈ findManifests st (userLabels u), m ∈ (setUserProfileMid st u).manifests) := by
  refine ⟨?_, ?_, ?_, ?_, ?_⟩
  · -- final state of setUserProfile
    unfold setUserProfile
    rw [hval]
    simp only [Bool.true_eq_false, if_false]
    unfold putManifest
    rw [foldl_delete_eq]
    simp only [Except.ok.injEq, Prod.mk.injEq, MStore.mk.injEq]
    refine ⟨by trivial, ?_, by trivial⟩
    rw [List.filter_append]
    congr 1
    · apply List.filter_congr
      intro m hm
      rw [contains_found_iff st (userLabels u) hnodup m hm]
    · rw [List.filter_cons]
      simp only [new_id_not_in_found st (userLabels u) hfresh, Bool.not_false, List.filter_nil,
        if_pos]
  · -- exactly one matching manifest afterwards: the new one
    unfold findManifests
    simp only [List.filter_append]
    rw [List.filter_cons]
    simp only [userLabels_self_match, List.filter_nil, if_pos]
    have : (st.manifests.filter (fun m => !labelsMatch (userLabels u) m)).filter
        (labelsMatch (userLabels u)) = [] := by
      rw [List.filter_filter]
      apply List.filter_eq_nil_iff.mpr
      intro m _
      cases h : labelsMatch (userLabels u) m <;> simp [h]
    rw [this]
    rfl
  · -- previously matching manifests are gone
    intro m hm hmem
    have hmatch := List.of_mem_filter hm
    have hmst := List.mem_of_mem_filter hm
    rcases List.mem_append.mp hmem with hleft | hright
    · have := List.of_mem_filter hleft
      rw [hmatch] at this
      simp at this
    · have : m = ⟨st.nextId, userLabels u⟩ := by simpa using hright
      have hlt := hfresh m hmst
      rw [this] at hlt
      simp at hlt
  · -- new manifest present in the intermediate store
    unfold setUserProfileMid putManifest
    simp
  · -- old manifests still present in the intermediate store
    intro m hm
    unfold setUserProfileMid putManifest
    simp only [List.mem_append]
    exact Or.inl (List.mem_of_mem_filter hm)

/-- Witness for C4: a store holding an old profile for `alice@host` (id 0) and a
snapshot manifest (id 1); setting the profile keeps the snapshot, deletes the
old profile and leaves exactly the new manifest with id 2. -/
theorem C4_set_user_profile_witness :
    setUserProfile ⟨[⟨0, userLabels "alice@host"⟩, ⟨1, [("type", "snapshot")]⟩], 2⟩ "alice@host"
      = .ok (2, ⟨[⟨1, [("type", "snapshot")]⟩, ⟨2, userLabels "alice@host"⟩], 3⟩) := by
  have h := C4_set_user_profile ⟨[⟨0, userLabels "alice@host"⟩, ⟨1, [("type", "snapshot")]⟩], 2⟩
    "alice@host" (by decide) (by decide) (by decide)
  exact h.1.trans (by decide)

end UserProfile

namespace Treewalk

theorem forestLabels_append (l1 l2 : List ItemTree) :
    treeLabels.forestLabels (l1 ++ l2)
      = treeLabels.forestLabels l1 ++ treeLabels.forestLabels l2 := by
  induction l1 with
  | nil => simp [treeLabels.forestLabels]
  | cons t ts ih => simp [treeLabels.forestLabels, ih]

theorem treeLabels_eq (t : ItemTree) :
    treeLabels t = t.label :: treeLabels.forestLabels t.kids := by
  cases t with
  | node l cs => rfl

theorem walkStep_perm (s1 s2 : WalkState) (h : WalkStep s1 s2) :
    (s2.processed ++ treeLabels.forestLabels s2.pending).Perm
      (s1.processed ++ treeLabels.forestLabels s1.pending) := by
  cases h with
  | process pre post t processed =>
    simp only [forestLabels_append, treeLabels.forestLabels, treeLabels_eq, List.append_assoc,
      List.cons_append, List.singleton_append, List.nil_append]
    exact List.Perm.append_left _ List.perm_middle.symm

theorem walk_perm (s1 s2 : WalkState) (h : Relation.ReflTransGen WalkStep s1 s2) :
    (s2.processed ++ treeLabels.forestLabels s2.pending).Perm
      (s1.processed ++ treeLabels.forestLabels s1.pending) := by
  induction h with
  | refl => exact List.Perm.refl _
  | tail _ hstep ih => exact (walkStep_perm _ _ hstep).trans ih

theorem walkStep_measure (s1 s2 : WalkState) (h : WalkStep s1 s2) :
    walkMeasure s2 < walkMeasure s1 := by
  cases h with
  | process pre post t processed =>
    simp only [walkMeasure, forestLabels_append, treeLabels.forestLabels, treeLabels_eq,
      List.length_append, List.length_cons]
    omega

/-- C9: a worker's dequeue returns no-more-work exactly when the queue is empty
and no discovery is active (`queued == 0 and active == 0`); and under
terminating, non-erroring item callbacks — items given with the children their
callback reports — a completed walk (all initial items and transitively
reported children consumed, whether by a pooled worker or inline on the
reporting goroutine) has processed every initial item and every transitively
reported child exactly once; each processing step strictly decreases the
remaining work, so `InParallel` terminates and returns only then. -/
theorem C9_treewalk_in_parallel :
    (∀ queued active : Nat, ¬(queued = 0 ∧ 0 < active) →
      (dequeueDisc queued active = none ↔ (queued = 0 ∧ active = 0))) ∧
    (∀ (items : List ItemTree) (processed : List Nat),
      Relation.ReflTransGen WalkStep ⟨items, []⟩ ⟨[], processed⟩ →
      processed.Perm (treeLabels.forestLabels items)) ∧
    (∀ s1 s2 : WalkState, WalkStep s1 s2 → walkMeasure s2 < walkMeasure s1) := by
  refine ⟨?_, ?_, walkStep_measure⟩
  · intro queued active hpost
    unfold dequeueDisc
    by_cases h : queued = 0
    · rw [if_pos h]
      simp only [h, true_and]
      constructor
      · intro _
        omega
      · intro _
        trivial
    · rw [if_neg h]
      simp [h]
  · intro items processed h
    have := walk_perm _ _ h
    simpa [treeLabels.forestLabels] using this

/-- Witness for C9: two-level tree `0 → 1`; the trace that processes the root
then the child is a complete walk, and the processed labels are exactly the
labels of the tree. -/
theorem C9_treewalk_in_parallel_witness :
    (dequeueDisc 0 0 = none) ∧
    ([0, 1].Perm
      (treeLabels.forestLabels [ItemTree.node 0 [ItemTree.node 1 []]])) := by
  have h := C9_treewalk_in_parallel
  constructor
  · exact (h.1 0 0 (by omega)).mpr ⟨rfl, rfl⟩
  · apply h.2.1
    have s1 : WalkStep ⟨[ItemTree.node 0 [ItemTree.node 1 []]], []⟩
        ⟨[ItemTree.node 1 []], [0]⟩ :=
      WalkStep.process [] [] (ItemTree.node 0 [ItemTree.node 1 []]) []
    have s2 : WalkStep ⟨[ItemTree.node 1 []], [0]⟩ ⟨[], [0, 1]⟩ :=
      WalkStep.process [] [] (ItemTree.node 1 []) [0]
    exact (Relation.ReflTransGen.single s1).tail s2

end Treewalk

namespace Maintenance

theorem foldl_max_mem (xs : List Int) : ∀ x : Int, xs.foldl max x = x ∨ xs.foldl max x ∈ xs := by
  induction xs with
  | nil => intro x; exact Or.inl rfl
  | cons y ys ih =>
    intro x
    rw [List.foldl_cons]
    rcases ih (max x y) with h | h
    · rcases max_choice x y with hx | hy
      · exact Or.inl (h.trans hx)
      · refine Or.inr ?_
        rw [h, hy]
        exact List.mem_cons_self y ys
    · exact Or.inr (List.mem_cons_of_mem y h)

theorem le_foldl_max (xs : List Int) :
    ∀ x : Int, x ≤ xs.foldl max x ∧ ∀ y ∈ xs, y ≤ xs.foldl max x := by
  induction xs with
  | nil => intro x; exact ⟨le_refl x, by simp⟩
  | cons y ys ih =>
    intro x
    rw [List.foldl_cons]
    obtain ⟨h1, h2⟩ := ih (max x y)
    refine ⟨le_trans (le_max_left x y) h1, ?_⟩
    intro z hz
    rcases List.mem_cons.mp hz with hzy | hzys
    · rw [hzy]
      exact le_trans (le_max_right x y) h1
    · exact h2 z hzys

theorem maxStart_iff (l : List Int) (n : Int) :
    maxStart l = some n ↔ (n ∈ l ∧ ∀ x ∈ l, x ≤ n) := by
  constructor
  · intro h
    cases l with
    | nil => simp [maxStart] at h
    | cons x xs =>
      simp only [maxStart, Option.some.injEq] at h
      subst h
      constructor
      · rcases foldl_max_mem xs x with h | h
        · rw [h]
          exact List.mem_cons_self x xs
        · exact List.mem_cons_of_mem x h
      · intro z hz
        obtain ⟨h1, h2⟩ := le_foldl_max xs x
        rcases List.mem_cons.mp hz with hzx | hzxs
        · rw [hzx]; exact h1
        · exact h2 z hzxs
  · intro ⟨hmem, hub⟩
    cases l with
    | nil => exact absurd hmem (List.not_mem_nil n)
    | cons x xs =>
      simp only [maxStart, Option.some.injEq]
      obtain ⟨h1, h2⟩ := le_foldl_max xs x
      have hle : xs.foldl max x ≤ n := by
        rcases foldl_max_mem xs x with h | h
        · rw [h]
          exact hub x (List.mem_cons_self x xs)
        · exact hub _ (List.mem_cons_of_mem x h)
      have hge : n ≤ xs.foldl max x := by
        rcases List.mem_cons.mp hmem with hnx | hnxs
        · rw [hnx]; exact h1
        · exact h2 n hnxs
      exact le_antisymm hle hge

theorem findSafeDropTime_iff (runs : List RunInfo) (safety : SafetyParams) (t : Int) :
    findSafeDropTime runs safety = some t ↔
      ∃ n p : Int, maxStart (successfulStarts runs) = some n ∧
        maxStart ((successfulStarts runs).erase n) = some p ∧
        safety.marginBetweenSnapshotGC ≤ n - p ∧
        t = p - safety.dropContentFromIndexExtraMargin := by
  constructor
  · intro h
    unfold findSafeDropTime at h
    split at h
    · exact absurd h (by simp)
    · rename_i newest hm1
      split at h
      · exact absurd h (by simp)
      · rename_i prev hm2
        split_ifs at h with hmargin
        injection h with h2
        exact ⟨newest, prev, hm1, hm2, hmargin, h2.symm⟩
  · intro ⟨n, p, hn, hp, hm, ht⟩
    have hcalc : findSafeDropTime runs safety
        = if safety.marginBetweenSnapshotGC ≤ n - p
          then some (p - safety.dropContentFromIndexExtraMargin) else none := by
      unfold findSafeDropTime
      simp only [hn, hp]
    rw [hcalc, if_pos hm, ht]

theorem shouldDrop_iff (e : IndexEntry) (runs : List RunInfo) (safety : SafetyParams)
    (hdel : e.deleted = true) :
    shouldDrop e runs safety = true ↔
      ∃ t, findSafeDropTime runs safety = some t ∧ e.ts ≤ t := by
  unfold shouldDrop
  rw [hdel]
  simp only [Bool.true_and]
  cases hf : findSafeDropTime runs safety with
  | none => simp
  | some t => simp

/-- C1: for every tombstoned content, the drop-deleted-contents task omits its
entry from the compacted index exactly when all three conditions hold: at least
2 successful snapshot-GC runs exist in the recorded history, the spacing
between the two newest GC runs is at least `MarginBetweenSnapshotGC`, and the
tombstone's timestamp is at most the previous (second newest) GC start minus
`DropContentFromIndexExtraMargin`; a tombstone for which any condition fails is
never omitted. -/
theorem C1_drop_deleted_conditions (entries : List IndexEntry)
    (runs : List RunInfo) (safety : SafetyParams)
    (e : IndexEntry) (he : e ∈ entries) (hdel : e.deleted = true) :
    (e ∉ dropDeletedContents entries runs safety) ↔
      (2 ≤ (successfulStarts runs).length ∧
        ∃ n p : Int,
          n ∈ successfulStarts runs ∧
          (∀ x ∈ successfulStarts runs, x ≤ n) ∧
          p ∈ (successfulStarts runs).erase n ∧
          (∀ x ∈ (successfulStarts runs).erase n, x ≤ p) ∧
          safety.marginBetweenSnapshotGC ≤ n - p ∧
          e.ts ≤ p - safety.dropContentFromIndexExtraMargin) := by
  have hmem : (e ∉ dropDeletedContents entries runs safety) ↔
      shouldDrop e runs safety = true := by
    unfold dropDeletedContents
    constructor
    · intro hnot
      by_contra hsd
      refine hnot (List.mem_filter.mpr ⟨he, ?_⟩)
      cases h : shouldDrop e runs safety with
      | true => exact absurd h hsd
      | false => simp
    · intro hsd hmem2
      have := (List.mem_filter.mp hmem2).2
      rw [hsd] at this
      simp at this
  rw [hmem, shouldDrop_iff e runs safety hdel]
  constructor
  · intro ⟨t, hf, hts⟩
    obtain ⟨n, p, hn, hp, hmargin, ht⟩ := (findSafeDropTime_iff runs safety t).mp hf
    obtain ⟨hnmem, hnub⟩ := (maxStart_iff _ n).mp hn
    obtain ⟨hpmem, hpub⟩ := (maxStart_iff _ p).mp hp
    refine ⟨?_, n, p, hnmem, hnub, hpmem, hpub, hmargin, by omega⟩
    have h1 : ((successfulStarts runs).erase n).length = (successfulStarts runs).length - 1 :=
      List.length_erase_of_mem hnmem
    have h2 : 1 ≤ ((successfulStarts runs).erase n).length := List.length_pos.mpr (by
      intro hnil
      rw [hnil] at hpmem
      exact absurd hpmem (List.not_mem_nil p))
    have h3 : 1 ≤ (successfulStarts runs).length := List.length_pos.mpr (by
      intro hnil
      rw [hnil] at hnmem
      exact absurd hnmem (List.not_mem_nil n))
    omega
  · intro ⟨_, n, p, hnmem, hnub, hpmem, hpub, hmargin, hts⟩
    refine ⟨p - safety.dropContentFromIndexExtraMargin, ?_, hts⟩
    exact (findSafeDropTime_iff runs safety _).mpr
      ⟨n, p, (maxStart_iff _ n).mpr ⟨hnmem, hnub⟩, (maxStart_iff _ p).mpr ⟨hpmem, hpub⟩,
        hmargin, rfl⟩

/-- Witness for C1: GC history with successful runs at 0, 25 and 29, margins
4 and 1 (the SafetyFull pattern of the analysis notes, in hours); a tombstone
stamped 10 is dropped, and the run history satisfies the three conditions with
newest 29 and previous 25. -/
theorem C1_drop_deleted_conditions_witness :
    (⟨1, 10, true⟩ : IndexEntry)
      ∉ dropDeletedContents [⟨1, 10, true⟩]
          [⟨0, true⟩, ⟨25, true⟩, ⟨29, true⟩] ⟨4, 1⟩ := by
  have h := C1_drop_deleted_conditions [⟨1, 10, true⟩]
    [⟨0, true⟩, ⟨25, true⟩, ⟨29, true⟩] ⟨4, 1⟩ ⟨1, 10, true⟩ (by decide) rfl
  refine h.mpr ⟨by decide, 29, 25, by decide, ?_, by decide, ?_, by decide, by decide⟩
  · intro x hx
    fin_cases hx <;> decide
  · intro x hx
    fin_cases hx <;> decide

end Maintenance

namespace FormatMgr

theorem oldestCandidate_spec (l : List BlobRec) :
    ∀ start : BlobRec,
      (oldestCandidate start l = start ∨ oldestCandidate start l ∈ l) ∧
      (oldestCandidate start l).ts ≤ start.ts ∧
      (∀ x ∈ l, (oldestCandidate start l).ts ≤ x.ts) := by
  induction l with
  | nil =>
    intro s
    exact ⟨Or.inl rfl, le_refl _, by simp⟩
  | cons b bs ih =>
    intro s
    by_cases h : b.ts < s.ts
    · have hstep : oldestCandidate s (b :: bs) = oldestCandidate b bs := by
        simp [oldestCandidate, h]
      obtain ⟨hmem, hts, hall⟩ := ih b
      rw [hstep]
      refine ⟨?_, by omega, ?_⟩
      · rcases hmem with hm | hm
        · refine Or.inr ?_
          rw [hm]
          exact List.mem_cons_self b bs
        · exact Or.inr (List.mem_cons_of_mem b hm)
      · intro x hx
        rcases List.mem_cons.mp hx with hxb | hxbs
        · rw [hxb]
          exact hts
        · exact hall x hxbs
    · have hstep : oldestCandidate s (b :: bs) = oldestCandidate s bs := by
        simp [oldestCandidate, h]
      obtain ⟨hmem, hts, hall⟩ := ih s
      rw [hstep]
      refine ⟨?_, hts, ?_⟩
      · rcases hmem with hm | hm
        · exact Or.inl hm
        · exact Or.inr (List.mem_cons_of_mem b hm)
      · intro x hx
        rcases List.mem_cons.mp hx with hxb | hxbs
        · rw [hxb]
          omega
        · exact hall x hxbs

theorem rollbackLoop_spec (listing : List BlobRec) :
    ∀ (st : FmtState) (ob : BlobRec),
      ((ob :: listing).map BlobRec.bid).Nodup →
      ∃ dels : List String,
        (rollbackLoop st listing (some ob)).fst.blobs
            = st.blobs.filter (fun b => !dels.contains b.bid) ∧
        (rollbackLoop st listing (some ob)).snd = some (oldestCandidate ob listing) ∧
        (oldestCandidate ob listing).bid ∉ dels ∧
        (∀ x ∈ ob :: listing, x = oldestCandidate ob listing ∨ x.bid ∈ dels) := by
  induction listing with
  | nil =>
    intro st ob _
    refine ⟨[], by simp [rollbackLoop], rfl, by simp, ?_⟩
    intro x hx
    rcases List.mem_cons.mp hx with h | h
    · exact Or.inl (by rw [h]; rfl)
    · exact absurd h (List.not_mem_nil x)
  | cons bm rest ih =>
    intro st ob hnodup
    by_cases hlt : bm.ts < ob.ts
    · have hstep : rollbackLoop st (bm :: rest) (some ob)
          = rollbackLoop (deleteB st ob.bid) rest (some bm) := by
        simp [rollbackLoop, hlt]
      have hcand : oldestCandidate ob (bm :: rest) = oldestCandidate bm rest := by
        simp [oldestCandidate, hlt]
      have hnodup2 : ((bm :: rest).map BlobRec.bid).Nodup := by
        rw [List.map_cons] at hnodup
        exact (List.nodup_cons.mp hnodup).2
      obtain ⟨dels, hblobs, hsnd, hnotdel, hcover⟩ := ih (deleteB st ob.bid) bm hnodup2
      refine ⟨ob.bid :: dels, ?_, ?_, ?_, ?_⟩
      · rw [hstep, hblobs]
        unfold deleteB
        simp only [List.filter_filter]
        apply List.filter_congr
        intro b _
        by_cases h : b.bid = ob.bid <;> simp [List.contains_cons, Bool.not_or, h]
      · rw [hstep, hsnd, hcand]
      · rw [hcand]
        intro hmem
        rcases List.mem_cons.mp hmem with h | h
        · have hc := (oldestCandidate_spec rest bm).1
          have hcbid : (oldestCandidate bm rest).bid ∈ (bm :: rest).map BlobRec.bid := by
            rcases hc with hc | hc
            · rw [hc]
              exact List.mem_map.mpr ⟨bm, List.mem_cons_self bm rest, rfl⟩
            · exact List.mem_map.mpr ⟨_, List.mem_cons_of_mem bm hc, rfl⟩
          rw [h] at hcbid
          rw [List.map_cons] at hnodup
          exact (List.nodup_cons.mp hnodup).1 hcbid
        · exact hnotdel h
      · intro x hx
        rcases List.mem_cons.mp hx with hxo | hxr
        · refine Or.inr ?_
          rw [hxo]
          exact List.mem_cons_self ob.bid dels
        · rcases hcover x hxr with h | h
          · exact Or.inl (by rw [hcand]; exact h)
          · exact Or.inr (List.mem_cons_of_mem ob.bid h)
    · have hstep : rollbackLoop st (bm :: rest) (some ob)
          = rollbackLoop (deleteB st bm.bid) rest (some ob) := by
        simp [rollbackLoop, hlt]
      have hcand : oldestCandidate ob (bm :: rest) = oldestCandidate ob rest := by
        simp [oldestCandidate, hlt]
      have hnodup2 : ((ob :: rest).map BlobRec.bid).Nodup := by
        rw [List.map_cons] at hnodup ⊢
        rw [List.map_cons] at hnodup
        have h1 := List.nodup_cons.mp hnodup
        refine List.nodup_cons.mpr ⟨?_, (List.nodup_cons.mp h1.2).2⟩
        intro hmem
        exact h1.1 (List.mem_cons_of_mem bm.bid hmem)
      obtain ⟨dels, hblobs, hsnd, hnotdel, hcover⟩ := ih (deleteB st bm.bid) ob hnodup2
      have hbmnot : bm.bid ∉ (ob :: rest).map BlobRec.bid := by
        rw [List.map_cons] at hnodup
        rw [List.map_cons] at hnodup
        have h1 := List.nodup_cons.mp hnodup
        rw [List.map_cons]
        intro hmem
        rcases List.mem_cons.mp hmem with h | h
        · exact h1.1 (by rw [← h]; exact List.mem_cons_self bm.bid _)
        · exact (List.nodup_cons.mp h1.2).1 h
      refine ⟨bm.bid :: dels, ?_, ?_, ?_, ?_⟩
      · rw [hstep, hblobs]
        unfold deleteB
        simp only [List.filter_filter]
        apply List.filter_congr
        intro b _
        by_cases h : b.bid = bm.bid <;> simp [List.contains_cons, Bool.not_or, h]
      · rw [hstep, hsnd, hcand]
      · rw [hcand]
        intro hmem
        rcases List.mem_cons.mp hmem with h | h
        · have hc := (oldestCandidate_spec rest ob).1
          have hcbid : (oldestCandidate ob rest).bid ∈ (ob :: rest).map BlobRec.bid := by
            rcases hc with hc | hc
            · rw [hc]
              exact List.mem_map.mpr ⟨ob, List.mem_cons_self ob rest, rfl⟩
            · exact List.mem_map.mpr ⟨_, List.mem_cons_of_mem ob hc, rfl⟩
          rw [h] at hcbid
          exact hbmnot hcbid
        · exact hnotdel h
      · intro x hx
        rcases List.mem_cons.mp hx with hxo | hxr
        · rcases hcover x (by rw [hxo]; exact List.mem_cons_self ob rest) with h | h
          · exact Or.inl (by rw [hcand]; exact h)
          · exact Or.inr (List.mem_cons_of_mem bm.bid h)
        · rcases List.mem_cons.mp hxr with hxbm | hxrest
          · refine Or.inr ?_
            rw [hxbm]
            exact List.mem_cons_self bm.bid dels
          · rcases hcover x (List.mem_cons_of_mem ob hxrest) with h | h
            · exact Or.inl (by rw [hcand]; exact h)
            · exact Or.inr (List.mem_cons_of_mem bm.bid h)

end FormatMgr

namespace FormatMgr

theorem bid_ne_fmt (sid : String) (h : hasPfx backupPfx sid = true) :
    sid ≠ kopiaRepositoryBlobID := by
  intro heq
  rw [heq] at h
  exact absurd h (by decide)

/-- C2 (amended): after `RollbackUpgrade` succeeds on a repository holding an
upgrade lock and one or more `kopia.repository.backup.*` blobs (with distinct
blob ids), the `kopia.repository` format blob's bytes equal byte-for-byte the
OLDEST (minimal-timestamp, first-listed among equals) backup format blob that
existed before the rollback — not the most recent one — and no blob with the
`kopia.repository.backup.` id prefix remains in the backend. -/
theorem C2_rollback_amended (st : FmtState) (now : Int)
    (hlock : st.upgradeLock = true)
    (hne : listPfx st backupPfx ≠ [])
    (hnodup : (st.blobs.map BlobRec.bid).Nodup) :
    ∃ (c : BlobRec) (st2 : FmtState),
      c ∈ listPfx st backupPfx ∧
      (∀ x ∈ listPfx st backupPfx, c.ts ≤ x.ts) ∧
      rollbackUpgrade st now = .ok st2 ∧
      getB st2 kopiaRepositoryBlobID = some c.data ∧
      listPfx st2 backupPfx = [] := by
  obtain ⟨first, rest, hlisting⟩ : ∃ f r, listPfx st backupPfx = f :: r := by
    cases hl : listPfx st backupPfx with
    | nil => exact absurd hl hne
    | cons f r => exact ⟨f, r, rfl⟩
  have hsubl : ((listPfx st backupPfx).map BlobRec.bid).Sublist (st.blobs.map BlobRec.bid) :=
    List.Sublist.map BlobRec.bid (List.filter_sublist st.blobs)
  have hpoolnodup : ((first :: rest).map BlobRec.bid).Nodup := by
    rw [← hlisting]
    exact List.Nodup.sublist hsubl hnodup
  obtain ⟨dels, hblobs, hsnd, hnotdel, hcover⟩ := rollbackLoop_spec rest st first hpoolnodup
  set c := oldestCandidate first rest with hc
  obtain ⟨hcmem0, hcts, hcall⟩ := oldestCandidate_spec rest first
  have hcmem : c ∈ listPfx st backupPfx := by
    rw [hlisting]
    rcases hcmem0 with h | h
    · rw [hc, h]
      exact List.mem_cons_self first rest
    · exact List.mem_cons_of_mem first h
  have hcmin : ∀ x ∈ listPfx st backupPfx, c.ts ≤ x.ts := by
    intro x hx
    rw [hlisting] at hx
    rcases List.mem_cons.mp hx with h | h
    · rw [h]
      exact hcts
    · exact hcall x h
  have hcst : c ∈ st.blobs ∧ hasPfx backupPfx c.bid = true := by
    have h2 := hcmem
    unfold listPfx at h2
    have h3 := List.of_mem_filter h2
    exact ⟨List.mem_of_mem_filter h2, by simpa using h3⟩
  set st1 := (rollbackLoop st rest (some first)).fst with hst1
  have hcsurv : c ∈ st1.blobs := by
    rw [hblobs]
    refine List.mem_filter.mpr ⟨hcst.1, ?_⟩
    simpa using hnotdel
  have hget1 : getB st1 c.bid = some c.data := by
    have hex : ∃ b ∈ st1.blobs, (b.bid == c.bid) = true := ⟨c, hcsurv, beq_self_eq_true _⟩
    have hsome := List.find?_isSome.mpr hex
    obtain ⟨b, hfind⟩ := Option.isSome_iff_exists.mp hsome
    have hbbid0 := List.find?_some hfind
    have hbbid : (b.bid == c.bid) = true := by simpa using hbbid0
    have hbmem : b ∈ st1.blobs := List.mem_of_find?_eq_some hfind
    have hbmem2 : b ∈ st.blobs := by
      rw [hblobs] at hbmem
      exact List.mem_of_mem_filter hbmem
    have hbeq : b = c := List.inj_on_of_nodup_map hnodup hbmem2 hcst.1 (by simpa using hbbid)
    unfold getB
    rw [hfind, hbeq]
    rfl
  have hloop0 : rollbackLoop st (first :: rest) none = rollbackLoop st rest (some first) := by
    simp [rollbackLoop]
  have hrun : rollbackUpgrade st now
      = .ok (deleteB (putB st1 kopiaRepositoryBlobID c.data now) c.bid) := by
    unfold rollbackUpgrade
    rw [if_neg (by rw [hlock]; simp), hlisting, hloop0, hsnd]
    show (match getB st1 c.bid with
          | none => Except.error RollbackErr.readFailed
          | some d => Except.ok (deleteB (putB st1 kopiaRepositoryBlobID d now) c.bid)) = _
    rw [hget1]
  refine ⟨c, deleteB (putB st1 kopiaRepositoryBlobID c.data now) c.bid,
    hcmem, hcmin, hrun, ?_, ?_⟩
  · -- format blob now holds the oldest backup's bytes
    have hfmtne : (kopiaRepositoryBlobID != c.bid) = true :=
      bne_iff_ne.mpr (Ne.symm (bid_ne_fmt c.bid hcst.2))
    unfold getB deleteB putB
    simp only [List.filter_append]
    rw [List.filter_cons]
    simp only [hfmtne, List.filter_nil, if_pos]
    rw [List.find?_append]
    have hnonefst : ((st1.blobs.filter (fun b => b.bid != kopiaRepositoryBlobID)).filter
        (fun b => b.bid != c.bid)).find? (fun b => b.bid == kopiaRepositoryBlobID) = none := by
      rw [List.find?_eq_none]
      intro x hx
      have hx1 := List.mem_of_mem_filter hx
      have hx2 := List.of_mem_filter hx1
      simp only [bne_iff_ne, ne_eq] at hx2
      simp only [beq_iff_eq]
      exact hx2
    rw [hnonefst]
    simp
  · -- no backup blob remains
    unfold listPfx deleteB putB
    rw [List.filter_eq_nil_iff]
    intro b hb
    have hb1 := List.mem_of_mem_filter hb
    have hbne := List.of_mem_filter hb
    rcases List.mem_append.mp hb1 with hleft | hright
    · have hbst1 : b ∈ st1.blobs := List.mem_of_mem_filter hleft
      have hbst : b ∈ st.blobs := by
        rw [hblobs] at hbst1
        exact List.mem_of_mem_filter hbst1
      have hbnotdel : (!dels.contains b.bid) = true := by
        rw [hblobs] at hbst1
        have := List.of_mem_filter hbst1
        simpa using this
      intro hbpfx
      have hbl : b ∈ first :: rest := by
        rw [← hlisting]
        unfold listPfx
        exact List.mem_filter.mpr ⟨hbst, hbpfx⟩
      rcases hcover b hbl with h | h
      · rw [h] at hbne
        simp at hbne
      · rw [Bool.not_eq_true'] at hbnotdel
        have : b.bid ∈ dels := h
        simp only [List.contains_eq_any_beq] at hbnotdel
        rw [List.any_eq_false] at hbnotdel
        exact absurd (beq_self_eq_true b.bid) (by
          intro hbeq
          exact absurd hbeq (hbnotdel b.bid this))
    · have hbeq2 : b = ⟨kopiaRepositoryBlobID, now, c.data⟩ := by simpa using hright
      rw [hbeq2]
      exact (by decide : ¬hasPfx backupPfx kopiaRepositoryBlobID = true)

end FormatMgr

namespace FormatMgr

/-- C2 counterexample: on a repository with two backup blobs, rollback restores
the OLDEST backup (bytes `[65]`), while the claim demands the most recent one
(bytes `[66]`); the resulting format blob differs from the most recent backup's
bytes. -/
theorem C2_rollback_counterexample :
    rollbackUpgrade twoBackupState 5 = .ok ⟨true, [⟨"kopia.repository", 5, [65]⟩]⟩ ∧
    getB (⟨true, [⟨"kopia.repository", 5, [65]⟩]⟩ : FmtState) kopiaRepositoryBlobID
      = some [65] ∧
    (mostRecentBackup twoBackupState).map BlobRec.data = some [66] ∧
    ¬(getB (⟨true, [⟨"kopia.repository", 5, [65]⟩]⟩ : FmtState) kopiaRepositoryBlobID
        = (mostRecentBackup twoBackupState).map BlobRec.data) := by
  refine ⟨by decide, by decide, by decide, by decide⟩

/-- Witness for C2 (amended) on the two-backup repository state. -/
theorem C2_rollback_amended_witness :
    ∃ (c : BlobRec) (st2 : FmtState),
      c ∈ listPfx twoBackupState backupPfx ∧
      (∀ x ∈ listPfx twoBackupState backupPfx, c.ts ≤ x.ts) ∧
      rollbackUpgrade twoBackupState 5 = .ok st2 ∧
      getB st2 kopiaRepositoryBlobID = some c.data ∧
      listPfx st2 backupPfx = [] :=
  C2_rollback_amended twoBackupState 5 rfl (by decide) (by decide)

end FormatMgr
